import Mathlib

/-!
Verification development for the nimbus temporary file store.

The Go source (`zipper.go`) is shallowly embedded below:

* `pathBase`     models Go `path.Base`,
* `filepathExt`  models Go `filepath.Ext` (on Unix, where '/' is the only
  path separator),
* `NimbusHTTPFormImpl` holds the immutable configuration fields of the Go
  struct of the same name that the modelled operations read
  (`tmpDir`, `tBuffSize`, `allowedExtensions`, `allowNoExt`); the mutable
  `mimeCache` field and the backing directory contents form the explicit
  state `StoreState`,
* `isExtAllowed` models the method of the same name,
* `goCopy`       models the chunked `write` helper, over an explicit list of
  read results and an explicit per-call write-success oracle (the Go code
  discards the result of `w.Write`, and the model correspondingly never
  inspects the oracle),
* `fileReads`    is the read-result trace of an in-memory byte sequence read
  through a deterministic file handle (each read fills the buffer as far as
  the remaining data allows; at end of data the next read returns `(0, EOF)`),
* `uploadModel` / `downloadModel` / `deleteModel` / `downloadManyModel`
  model the `Upload`, `Download`, `Delete` and `DownloadMany` handlers.

Bytes are modelled as `Nat`; errors are the Go error strings.
-/

namespace Nimbus

/-! ## Path functions (`path.Base`, `filepath.Ext`) -/

/-- `c` is the path separator character. -/
def isSlash (c : Char) : Bool := c == '/'

/-- Remove all trailing '/' characters, as the first step of Go `path.Base`. -/
def dropTrailingSlashes (l : List Char) : List Char :=
  (l.reverse.dropWhile isSlash).reverse

/-- The suffix of `l` after its last '/', i.e. the final path component. -/
def lastComponent (l : List Char) : List Char :=
  (l.reverse.takeWhile (fun c => !isSlash c)).reverse

/-- Go `path.Base` on the character list of a path: "." for the empty path,
"/" for a path consisting only of slashes, otherwise the last element of the
path after trailing slashes are removed. -/
def pathBaseL (l : List Char) : List Char :=
  if l = [] then ['.']
  else if dropTrailingSlashes l = [] then ['/']
  else lastComponent (dropTrailingSlashes l)

/-- Go `path.Base` on strings. -/
def pathBase (s : String) : String := ⟨pathBaseL s.data⟩

/-- Go `filepath.Ext` (Unix): scan the final path element backwards; the
extension is the suffix starting at the last '.', or empty if the final
element has no '.'. -/
def filepathExtL (l : List Char) : List Char :=
  let revTail := l.reverse.takeWhile (fun c => !isSlash c)
  if revTail.contains '.' then
    ((revTail.takeWhile (fun c => !(c == '.'))) ++ ['.']).reverse
  else []

/-- Go `filepath.Ext` on strings. -/
def filepathExt (s : String) : String := ⟨filepathExtL s.data⟩

/-! ## Configuration -/

/-- The configuration fields of the Go struct `NimbusHTTPFormImpl` that the
modelled operations read.  `dfk` and `maxSize` are consumed by the external
HTTP request-parsing layer and play no role in the store itself; the mutable
`mimeCache` field lives in `StoreState`. -/
structure NimbusHTTPFormImpl where
  tmpDir : String
  tBuffSize : Nat
  allowedExtensions : List String
  allowNoExt : Bool

/-- The `tmpFilePath` method: `fmt.Sprintf("%s/%s", n.tmpDir, path.Base(name))`. -/
def tmpFilePath (n : NimbusHTTPFormImpl) (name : String) : String :=
  n.tmpDir ++ "/" ++ pathBase name

/-! ## Extension policy (`isExtAllowed`) -/

/-- The `isExtAllowed` method: `none` means the extension is allowed;
`some msg` carries the Go error string. -/
def isExtAllowed (n : NimbusHTTPFormImpl) (ext : String) : Option String :=
  if ext = "" ∧ n.allowNoExt = false then
    some "no-extension files not permitted"
  else if n.allowedExtensions.length = 1 ∧
      n.allowedExtensions.head? = some "_all_" then
    none
  else if n.allowedExtensions.contains ext then
    none
  else
    some "file extension not permitted"

/-- The extension policy exactly as the spec words it (three ordered rules):
reject `NoExtension` when the extension is empty and extension-less files are
disallowed; accept when the allow-list is the allow-all sentinel `["_all_"]`;
otherwise accept iff the extension exactly equals some allow-list entry,
else reject `ExtensionNotPermitted`. -/
def extensionPolicySpec (n : NimbusHTTPFormImpl) (ext : String) : Option String :=
  if ext = "" ∧ n.allowNoExt = false then
    some "no-extension files not permitted"
  else if n.allowedExtensions = ["_all_"] then
    none
  else if ext ∈ n.allowedExtensions then
    none
  else
    some "file extension not permitted"

/-! ## Transfer engine (`write` helper) -/

/-- A Go I/O error as seen by the `write` helper: `io.EOF` or some other
error. -/
inductive GoErr where
  | eof : GoErr
  | other : String → GoErr
deriving DecidableEq, Repr

/-- Outcome of the `write` helper: normal return `ok`, early `err` return, or
`pending` when the supplied trace of read results ran out before the loop
terminated (the Go loop would issue a further read).  Each constructor
carries the bytes the destination accepted so far. -/
inductive CopyRes where
  | ok : List Nat → CopyRes
  | err : GoErr → List Nat → CopyRes
  | pending : List Nat → CopyRes
deriving DecidableEq, Repr

/-- The loop body of the `write` helper.  `reads` lists the results of the
successive `f.Read(buff)` calls as `(chunk, error)` pairs with
`chunk.length = n`; a read fills the buffer prefix and leaves the rest of the
buffer as it was.  `wok i` tells whether the `i`-th `w.Write(buff)` call
succeeds; the Go code discards that result, so it never influences control
flow — it only determines whether the destination accepts the buffer. -/
def goCopyAux (wok : Nat → Bool) :
    List (List Nat × Option GoErr) → Nat → List Nat → List Nat → CopyRes
  | [], _, _, out => CopyRes.pending out
  | (c, e) :: rest, i, buff, out =>
    let buff1 := c ++ buff.drop c.length
    if e = some GoErr.eof ∧ c.length = 0 then CopyRes.ok out
    else
      match e with
      | some er => CopyRes.err er out
      | none =>
          goCopyAux wok rest (i + 1) buff1
            (out ++ (if wok i then buff1 else []))

/-- The `write` helper: buffer initialised to `buffSize` zero bytes
(`make([]byte, buffSize)`), then the read/write loop. -/
def goCopy (reads : List (List Nat × Option GoErr)) (wok : Nat → Bool)
    (buffSize : Nat) : CopyRes :=
  goCopyAux wok reads 0 (List.replicate buffSize 0) []

/-- Read-result trace of an in-memory byte sequence `data` through a
deterministic handle with buffer size `s`: each read returns
`min s remaining` bytes with no error while data remains, then `(0, EOF)`.
The fuel argument equals `data.length` at the top call; it is exhausted only
when `s = 0` (where the real reader never progresses). -/
def fileReadsAux : Nat → List Nat → Nat → List (List Nat × Option GoErr)
  | _, [], _ => [([], some GoErr.eof)]
  | 0, _ :: _, _ => []
  | fuel + 1, b :: rest, s =>
      ((b :: rest).take s, none) :: fileReadsAux fuel ((b :: rest).drop s) s

/-- Read-result trace of an in-memory byte sequence. -/
def fileReads (data : List Nat) (s : Nat) : List (List Nat × Option GoErr) :=
  fileReadsAux data.length data s

/-- The bytes that land in the destination when `data` is streamed through
the `write` helper with chunk size `s` and an always-succeeding destination
(this is what both the upload path and the download path of the store do). -/
def storeBytes (data : List Nat) (s : Nat) : List Nat :=
  match goCopy (fileReads data s) (fun _ => true) s with
  | CopyRes.ok out => out
  | CopyRes.err _ out => out
  | CopyRes.pending out => out

/-! ## Store state and handlers -/

/-- The mutable state the handlers touch: the backing directory contents
(a map from full file path to file bytes) and the `mimeCache` map. -/
structure StoreState where
  files : String → Option (List Nat)
  mimeCache : String → Option (List String)

/-- The empty store: fresh backing directory, empty `mimeCache`. -/
def emptyStore : StoreState :=
  { files := fun _ => none, mimeCache := fun _ => none }

/-- The `Upload` handler (through `downloadFromRequest`), after the external
HTTP layer has extracted the original filename, the declared content types
and the uploaded bytes.  `rand` is the random part the unique temp-file
allocator (`ioutil.TempFile` with pattern `"*" + fExt`) picks, so the new
file's full path is `tmpDir ++ "/" ++ (rand ++ fExt)`.  Steps as in the
source: derive the extension with `filepath.Ext`; check `isExtAllowed`
(failure returns before any disk write); create the temp file and stream the
bytes into it with the `write` helper; record the content types in
`mimeCache` under `tempFile.Name()` (the full path); answer with
`path.Base(tempFile.Name())`. -/
def uploadModel (n : NimbusHTTPFormImpl) (st : StoreState) (filename : String)
    (contentType : List String) (data : List Nat) (rand : String) :
    Except String String × StoreState :=
  let fExt := filepathExt filename
  match isExtAllowed n fExt with
  | some e => (Except.error e, st)
  | none =>
    let fullName := n.tmpDir ++ "/" ++ (rand ++ fExt)
    let content := storeBytes data n.tBuffSize
    (Except.ok (pathBase fullName),
      { files := fun p => if p = fullName then some content else st.files p,
        mimeCache := fun k =>
          if k = fullName then some contentType else st.mimeCache k })

/-- The `Download` handler, after the external HTTP layer has extracted the
requested key (`files[0]`).  Steps as in the source: resolve the key with
`tmpFilePath`; open the file (absent path errors with `"cannot open: ..."`);
read the content types from `mimeCache` under the raw key, a missing entry
yielding the empty list (these are the values the handler then adds as
`Content-Type` headers); stream the file bytes out through the `write`
helper. -/
def downloadModel (n : NimbusHTTPFormImpl) (st : StoreState) (key : String) :
    Except String (List Nat × List String) :=
  let fName := tmpFilePath n key
  match st.files fName with
  | none => Except.error ("cannot open: " ++ pathBase fName)
  | some content =>
      Except.ok (storeBytes content n.tBuffSize,
        (st.mimeCache key).getD [])

/-- The `Delete` handler, after the external HTTP layer has extracted the
requested key.  Steps as in the source: `fName := n.tmpFilePath(files[0])`;
remove the file at `n.tmpFilePath(fName)` — note the second resolution of
the already-resolved path — (absent target errors); then remove the
`mimeCache` entry under `path.Base(fName)`. -/
def deleteModel (n : NimbusHTTPFormImpl) (st : StoreState) (key : String) :
    Except String Unit × StoreState :=
  let fName := tmpFilePath n key
  let target := tmpFilePath n fName
  match st.files target with
  | none => (Except.error "failed to delete file", st)
  | some _ =>
      (Except.ok (),
        { files := fun p => if p = target then none else st.files p,
          mimeCache := fun k =>
            if k = pathBase fName then none else st.mimeCache k })

/-- `Zipper.AddFile` on the in-memory filesystem: open the named file
(absent file errors), then create a zip entry named `path.Base(filename)`
holding the file's bytes. -/
def addFileModel (files : String → Option (List Nat))
    (entries : List (String × List Nat)) (filename : String) :
    Except String (List (String × List Nat)) :=
  match files filename with
  | none => Except.error ("cannot open " ++ filename)
  | some content => Except.ok (entries ++ [(pathBase filename, content)])

/-- Loop of the `DownloadMany` handler: add each requested key's backing
file to the in-progress archive; the first `AddFile` failure returns the
error immediately, discarding the in-memory archive buffer. -/
def downloadManyAux (n : NimbusHTTPFormImpl)
    (files : String → Option (List Nat)) :
    List String → List (String × List Nat) →
    Except String (List (String × List Nat))
  | [], acc => Except.ok acc
  | k :: rest, acc =>
    match addFileModel files acc (tmpFilePath n k) with
    | Except.error e => Except.error ("failed to compile archive: " ++ e)
    | Except.ok acc1 => downloadManyAux n files rest acc1

/-- The `DownloadMany` handler, after the external HTTP layer has decoded
the ordered key list.  The archive is assembled in an in-memory buffer and
written to the response only when every key was added and the zip writer
closed; any failure returns the error alone, so no archive bytes and no
entry reach the caller.  The success value is the list of zip entries of
the returned archive, in order. -/
def downloadManyModel (n : NimbusHTTPFormImpl) (st : StoreState)
    (keys : List String) : Except String (List (String × List Nat)) :=
  downloadManyAux n st.files keys []

/-! ## Helper lemmas about `pathBase` -/

/-- A character other than '/' fails `isSlash`. -/
lemma isSlash_eq_false {c : Char} (h : c ≠ '/') : isSlash c = false := by
  simp [isSlash, h]

/-- `dropWhile isSlash` is the identity on slash-free lists. -/
lemma noslash_dropWhile {l : List Char} (h : '/' ∉ l) :
    l.dropWhile isSlash = l := by
  cases l with
  | nil => rfl
  | cons c t =>
      have hc : c ≠ '/' := fun e => h (e ▸ List.mem_cons_self c t)
      exact List.dropWhile_cons_of_neg (by simp [isSlash, hc])

/-- `takeWhile (!isSlash ·)` is the identity on slash-free lists. -/
lemma noslash_takeWhile {l : List Char} (h : '/' ∉ l) :
    l.takeWhile (fun c => !isSlash c) = l :=
  List.takeWhile_eq_self_iff.mpr (fun a ha => by
    have hne : a ≠ '/' := fun e => h (e ▸ ha)
    simp [isSlash, hne])

/-- `dropTrailingSlashes` is the identity on slash-free lists. -/
lemma dropTrailingSlashes_noslash {l : List Char} (h : '/' ∉ l) :
    dropTrailingSlashes l = l := by
  unfold dropTrailingSlashes
  rw [noslash_dropWhile (by simpa using h), List.reverse_reverse]

/-- `lastComponent` is the identity on slash-free lists. -/
lemma lastComponent_noslash {l : List Char} (h : '/' ∉ l) :
    lastComponent l = l := by
  unfold lastComponent
  rw [noslash_takeWhile (by simpa using h), List.reverse_reverse]

/-- `pathBaseL` is the identity on nonempty slash-free lists. -/
lemma pathBaseL_noslash {l : List Char} (hne : l ≠ []) (h : '/' ∉ l) :
    pathBaseL l = l := by
  unfold pathBaseL
  rw [if_neg hne, dropTrailingSlashes_noslash h, if_neg hne,
    lastComponent_noslash h]

/-- The head of a `dropWhile` result fails the predicate. -/
lemma dropWhile_head_false {p : Char → Bool} :
    ∀ {l : List Char} {c : Char} {t : List Char},
      l.dropWhile p = c :: t → p c = false := by
  intro l
  induction l with
  | nil => intro c t h; simp [List.dropWhile] at h
  | cons a l ih =>
      intro c t h
      by_cases hpa : p a
      · rw [List.dropWhile_cons_of_pos hpa] at h
        exact ih h
      · rw [List.dropWhile_cons_of_neg hpa] at h
        injection h with h1 _
        subst h1
        simpa using hpa

/-- Go `path.Base` never returns the empty string. -/
lemma pathBaseL_ne_nil (l : List Char) : pathBaseL l ≠ [] := by
  unfold pathBaseL
  by_cases h1 : l = []
  · simp [h1]
  by_cases h2 : dropTrailingSlashes l = []
  · simp [h1, h2]
  rw [if_neg h1, if_neg h2]
  unfold lastComponent dropTrailingSlashes
  unfold dropTrailingSlashes at h2
  rw [List.reverse_reverse]
  have hd : l.reverse.dropWhile isSlash ≠ [] := by
    intro hnil
    exact h2 (by rw [hnil]; rfl)
  cases hdd : l.reverse.dropWhile isSlash with
  | nil => exact absurd hdd hd
  | cons c t =>
      have hc : isSlash c = false := dropWhile_head_false hdd
      rw [List.takeWhile_cons_of_pos (by simp [hc])]
      simp

/-- Go `path.Base` returns either "/" itself or a slash-free string. -/
lemma pathBaseL_no_slash (l : List Char) :
    pathBaseL l = ['/'] ∨ '/' ∉ pathBaseL l := by
  by_cases h1 : l = []
  · right; subst h1; decide
  by_cases h2 : dropTrailingSlashes l = []
  · left; unfold pathBaseL; rw [if_neg h1, if_pos h2]
  right
  unfold pathBaseL
  rw [if_neg h1, if_neg h2]
  intro hmem
  unfold lastComponent at hmem
  rw [List.mem_reverse] at hmem
  have h3 := List.mem_takeWhile_imp hmem
  simp [isSlash] at h3

/-- String-level form: `pathBase` never returns the empty string. -/
lemma pathBase_ne_empty (s : String) : pathBase s ≠ "" := by
  intro h
  exact pathBaseL_ne_nil s.data (congrArg String.data h)

/-- String-level form: a `pathBase` value other than "/" is slash-free. -/
lemma pathBase_no_slash (s : String) (h : pathBase s ≠ "/") :
    '/' ∉ (pathBase s).data := by
  rcases pathBaseL_no_slash s.data with h1 | h1
  · exact absurd (String.ext h1) h
  · exact h1

/-- Appending two slashes to a nonempty slash-free path and taking
`path.Base` gives the path back. -/
lemma pathBaseL_append_two_slashes {l : List Char} (hne : l ≠ [])
    (h : '/' ∉ l) : pathBaseL (l ++ ['/', '/']) = l := by
  unfold pathBaseL
  have hne2 : l ++ ['/', '/'] ≠ [] := by simp
  have hdrop : dropTrailingSlashes (l ++ ['/', '/']) = l := by
    unfold dropTrailingSlashes
    rw [List.reverse_append]
    rw [show (['/', '/'] : List Char).reverse ++ l.reverse =
        '/' :: '/' :: l.reverse from rfl]
    rw [List.dropWhile_cons_of_pos (by decide),
      List.dropWhile_cons_of_pos (by decide),
      noslash_dropWhile (by simpa using h), List.reverse_reverse]
  rw [if_neg hne2, hdrop, if_neg hne, lastComponent_noslash h]

/-! ## Concrete instances used in the claims -/

/-- A store over `.nimbus_tmp` (the repository's example backing directory)
with transfer chunk size 2, allowing all extensions. -/
def cfgChunk2 : NimbusHTTPFormImpl :=
  { tmpDir := ".nimbus_tmp", tBuffSize := 2,
    allowedExtensions := ["_all_"], allowNoExt := true }

/-- As `cfgChunk2` but with transfer chunk size 1 (so single-byte payloads
stream without padding and the metadata behaviour is isolated). -/
def cfgChunk1 : NimbusHTTPFormImpl :=
  { tmpDir := ".nimbus_tmp", tBuffSize := 1,
    allowedExtensions := ["_all_"], allowNoExt := true }

/-- A store that only permits `.png` uploads and no extension-less files. -/
def cfgPng : NimbusHTTPFormImpl :=
  { tmpDir := ".nimbus_tmp", tBuffSize := 1,
    allowedExtensions := [".png"], allowNoExt := false }

/-- A store whose allow-list holds the sentinel string together with a
second entry. -/
def cfgMixed : NimbusHTTPFormImpl :=
  { tmpDir := ".nimbus_tmp", tBuffSize := 1,
    allowedExtensions := ["_all_", ".png"], allowNoExt := true }

/-- A store state whose backing directory holds exactly one file,
`.nimbus_tmp/a.png`, with content `[7]`, and an empty metadata cache. -/
def storeWithA : StoreState :=
  { files := fun p => if p = ".nimbus_tmp/a.png" then some [7] else none,
    mimeCache := fun _ => none }

/-- The store state after uploading byte `[1]` as `a.png` with declared
content type `image/png` into the empty `cfgChunk1` store, the temp-file
allocator having picked the random part `"abc123"`. -/
def uploadedStore : StoreState :=
  (uploadModel cfgChunk1 emptyStore "a.png" ["image/png"] [1] "abc123").2

/-- The store state after then deleting the key `"abc123.png"` that the
upload returned. -/
def deletedStore : StoreState :=
  (deleteModel cfgChunk1 uploadedStore "abc123.png").2

/-! ## Claims -/

/-- C1: the claim says a Download of an upload's key streams bytes identical
to the uploaded bytes for every payload length, including lengths that are
not a multiple of the chunk size.  The code violates this: the `write`
helper passes the whole reused buffer to `w.Write` instead of the `n` bytes
the read produced, so payloads are padded to a multiple of the chunk size.
Uploading the single byte `[1]` with chunk size 2 succeeds and returns key
`"abc123.png"`, but downloading that key streams `[1, 0]`, not `[1]`. -/
theorem upload_download_roundtrip_pads :
    (uploadModel cfgChunk2 emptyStore "a.png" ["image/png"] [1] "abc123").1 =
      Except.ok "abc123.png" ∧
    downloadModel cfgChunk2
      (uploadModel cfgChunk2 emptyStore "a.png" ["image/png"] [1] "abc123").2
      "abc123.png" = Except.ok ([1, 0], []) ∧
    ([1, 0] : List Nat) ≠ [1] :=
  ⟨rfl, rfl, by decide⟩

/-- C2: the claim says the content type recorded at upload time under the
returned key is delivered back on Download.  The code records the
`mimeCache` entry under the temp file's full path (`tempFile.Name()`) but
returns and later looks up the base name, so the entry is never found: after
uploading with declared content type `["image/png"]`, the cache has no entry
under the returned key `"abc123.png"`, the entry sits under
`".nimbus_tmp/abc123.png"`, and Download of the returned key delivers the
bytes with an empty content-type list. -/
theorem download_content_type_lost :
    (uploadModel cfgChunk1 emptyStore "a.png" ["image/png"] [1] "abc123").1 =
      Except.ok "abc123.png" ∧
    uploadedStore.mimeCache "abc123.png" = none ∧
    uploadedStore.mimeCache ".nimbus_tmp/abc123.png" = some ["image/png"] ∧
    downloadModel cfgChunk1 uploadedStore "abc123.png" =
      Except.ok ([1], []) ∧
    (["image/png"] : List String) ≠ [] :=
  ⟨rfl, rfl, rfl, rfl, by decide⟩

/-- C3: the claim says the chunked copy helper succeeds exactly on clean
end-of-stream — including a final read returning data together with
end-of-stream — with the destination fully written, and that every write
failure yields an IOError.  The code violates both directions: a read
returning 1 byte together with EOF makes the helper return the EOF as an
error (the byte is dropped, no success); and the helper discards the result
of `w.Write`, so with a destination whose writes all fail it still returns
success while the destination received nothing. -/
theorem write_helper_misreports :
    goCopy [([1], some GoErr.eof)] (fun _ => true) 2 =
      CopyRes.err GoErr.eof [] ∧
    goCopy [([1, 2], none), ([], some GoErr.eof)] (fun _ => false) 2 =
      CopyRes.ok [] :=
  ⟨rfl, rfl⟩

/-- C4: the claim (spec invariant I1) says that outside the upload in-flight
window every metadata-cache key is the base name of exactly one backing file
and vice versa, that Upload records the entry under the key it returns, and
that Delete removes both the file and that key's entry.  The code violates
this: Upload records the entry under the temp file's full path, not the
returned key, so already after the upload completes the sole cache key
`".nimbus_tmp/abc123.png"` is not the base name of the sole backing file
(whose base name is `"abc123.png"`); and Delete evicts the cache under the
base name, so after a successful Delete no backing file remains while the
stale full-path cache entry survives. -/
theorem cache_file_invariant_broken :
    uploadedStore.files ".nimbus_tmp/abc123.png" = some [1] ∧
    uploadedStore.mimeCache "abc123.png" = none ∧
    uploadedStore.mimeCache ".nimbus_tmp/abc123.png" = some ["image/png"] ∧
    pathBase ".nimbus_tmp/abc123.png" = "abc123.png" ∧
    ("abc123.png" : String) ≠ ".nimbus_tmp/abc123.png" ∧
    (deleteModel cfgChunk1 uploadedStore "abc123.png").1 = Except.ok () ∧
    (∀ p, deletedStore.files p = none) ∧
    deletedStore.mimeCache ".nimbus_tmp/abc123.png" = some ["image/png"] := by
  refine ⟨rfl, rfl, rfl, rfl, by decide, rfl, ?_, rfl⟩
  intro p
  show (if p = ".nimbus_tmp/abc123.png" then none
    else if p = ".nimbus_tmp/abc123.png" then some [1] else none) = none
  by_cases h : p = ".nimbus_tmp/abc123.png" <;> simp [h]

/-- C5: for every store whose backing directory name is nonempty and
slash-free there is a non-trivial key — the all-slashes key "/" — on which
the second path-join performed by `Delete` (`tmpFilePath` applied to the
already-resolved `tmpFilePath` of the key) constructs a path different from
the single resolution, so the file `Delete` removes is not the file a single
resolution designates. -/
theorem delete_double_resolution_differs (n : NimbusHTTPFormImpl)
    (h1 : n.tmpDir ≠ "") (h2 : '/' ∉ n.tmpDir.data) :
    ∃ k : String, k ≠ "" ∧
      tmpFilePath n (tmpFilePath n k) ≠ tmpFilePath n k := by
  refine ⟨"/", by decide, ?_⟩
  have hdne : n.tmpDir.data ≠ [] := fun hl => h1 (String.ext hl)
  unfold tmpFilePath
  rw [show pathBase "/" = "/" from rfl]
  have hdata : (n.tmpDir ++ "/" ++ "/").data = n.tmpDir.data ++ ['/', '/'] := by
    rw [String.data_append, String.data_append, List.append_assoc]
    rfl
  have hbig : pathBase (n.tmpDir ++ "/" ++ "/") = n.tmpDir := by
    unfold pathBase
    rw [hdata, pathBaseL_append_two_slashes hdne h2]
  rw [hbig]
  intro heq
  have hd := congrArg String.data heq
  rw [String.data_append, String.data_append, String.data_append,
    String.data_append] at hd
  have hc := List.append_cancel_left hd
  have : n.tmpDir.data = ['/'] := hc
  exact h2 (by rw [this]; exact List.mem_cons_self _ _)

/-- C5 witness: the general statement applied to the repository's example
backing directory `.nimbus_tmp`. -/
theorem delete_double_resolution_differs_witness :
    (cfgChunk1.tmpDir ≠ "" ∧ '/' ∉ cfgChunk1.tmpDir.data) ∧
    ∃ k : String, k ≠ "" ∧
      tmpFilePath cfgChunk1 (tmpFilePath cfgChunk1 k) ≠ tmpFilePath cfgChunk1 k :=
  ⟨⟨by decide, by decide⟩,
    delete_double_resolution_differs cfgChunk1 (by decide) (by decide)⟩

/-- C6 counterexample: the claim says Download resolves every key strictly
within the backing directory and that every key containing path-traversal
segments fails with NotFound rather than opening any file.  Both parts fail:
the key ".." resolves to `.nimbus_tmp/..` — the parent of the backing
directory, not strictly within it — and the traversal key "../a.png" is not
rejected: on a store whose backing directory holds `a.png` it is resolved
via its base name and successfully streamed. -/
theorem traversal_keys_not_rejected :
    tmpFilePath cfgChunk1 ".." = ".nimbus_tmp/.." ∧
    downloadModel cfgChunk1 storeWithA "../a.png" = Except.ok ([7], []) :=
  ⟨rfl, rfl⟩

/-- C6 amended: Download resolves every key `k` to
`tmpDir ++ "/" ++ path.Base k`; for every key whose base name is none of
"..", "." and "/", that resolved path is a direct child of the backing
directory (a nonempty slash-free name that is not "." or ".."), and Download
succeeds exactly when a backing file exists at that path.  Keys containing
traversal segments are not treated as NotFound: they are resolved through
their base name like any other key (and the base name ".." escapes to the
parent directory). -/
theorem download_resolves_via_base (n : NimbusHTTPFormImpl)
    (st : StoreState) (k : String)
    (h1 : pathBase k ≠ ".") (h2 : pathBase k ≠ "..") (h3 : pathBase k ≠ "/") :
    tmpFilePath n k = n.tmpDir ++ "/" ++ pathBase k ∧
    pathBase k ≠ "" ∧ pathBase k ≠ "." ∧ pathBase k ≠ ".." ∧
    '/' ∉ (pathBase k).data ∧
    ((∃ v, downloadModel n st k = Except.ok v) ↔
      ∃ c, st.files (n.tmpDir ++ "/" ++ pathBase k) = some c) := by
  refine ⟨rfl, pathBase_ne_empty k, h1, h2, pathBase_no_slash k h3, ?_⟩
  unfold downloadModel
  rw [show tmpFilePath n k = n.tmpDir ++ "/" ++ pathBase k from rfl]
  cases hb : st.files (n.tmpDir ++ "/" ++ pathBase k) with
  | none => simp [hb]
  | some c => simp [hb]

/-- C6 witness: the amended statement applied to the key "sub/secret.png"
(whose base name is "secret.png") on the example store. -/
theorem download_resolves_via_base_witness :
    (pathBase "sub/secret.png" ≠ "." ∧ pathBase "sub/secret.png" ≠ ".." ∧
      pathBase "sub/secret.png" ≠ "/") ∧
    (tmpFilePath cfgChunk1 "sub/secret.png" =
        cfgChunk1.tmpDir ++ "/" ++ pathBase "sub/secret.png" ∧
      pathBase "sub/secret.png" ≠ "" ∧ pathBase "sub/secret.png" ≠ "." ∧
      pathBase "sub/secret.png" ≠ ".." ∧
      '/' ∉ (pathBase "sub/secret.png").data ∧
      ((∃ v, downloadModel cfgChunk1 storeWithA "sub/secret.png" =
          Except.ok v) ↔
        ∃ c, storeWithA.files
          (cfgChunk1.tmpDir ++ "/" ++ pathBase "sub/secret.png") = some c)) :=
  ⟨⟨by decide, by decide, by decide⟩,
    download_resolves_via_base cfgChunk1 storeWithA "sub/secret.png"
      (by decide) (by decide) (by decide)⟩

/-- A list has length 1 with head `a` exactly when it is `[a]`. -/
lemma length_one_head_iff {l : List String} {a : String} :
    (l.length = 1 ∧ l.head? = some a) ↔ l = [a] := by
  cases l with
  | nil => simp
  | cons x t =>
      cases t with
      | nil => simp
      | cons y s => simp

/-- C7: the extension policy of the source (`isExtAllowed`) decides exactly
by the spec's three ordered rules — reject `NoExtension` for an empty
extension when extension-less files are disallowed; accept when the
allow-list is the allow-all sentinel `["_all_"]`; otherwise accept iff the
extension case-sensitively equals some allow-list entry (leading dot
included), else reject `ExtensionNotPermitted` — for every extension string
and every configuration. -/
theorem ext_policy_matches_spec (n : NimbusHTTPFormImpl) (ext : String) :
    isExtAllowed n ext = extensionPolicySpec n ext := by
  unfold isExtAllowed extensionPolicySpec
  by_cases h1 : ext = "" ∧ n.allowNoExt = false
  · rw [if_pos h1, if_pos h1]
  rw [if_neg h1, if_neg h1]
  by_cases h2 : n.allowedExtensions = ["_all_"]
  · rw [if_pos (length_one_head_iff.mpr h2), if_pos h2]
  rw [if_neg (fun hc => h2 (length_one_head_iff.mp hc)), if_neg h2]
  by_cases h3 : ext ∈ n.allowedExtensions
  · rw [if_pos (List.elem_eq_true_of_mem h3), if_pos h3]
  · rw [if_neg (fun hc => h3 (List.mem_of_elem_eq_true hc)), if_neg h3]

/-- If some key in the list has no backing file, the `DownloadMany` loop
returns an error whatever entries have been accumulated so far. -/
lemma downloadManyAux_error_of_missing (n : NimbusHTTPFormImpl)
    (files : String → Option (List Nat)) :
    ∀ (keys : List String) (acc : List (String × List Nat)),
      (∃ k ∈ keys, files (tmpFilePath n k) = none) →
      ∃ msg, downloadManyAux n files keys acc = Except.error msg := by
  intro keys
  induction keys with
  | nil =>
      intro acc h
      rcases h with ⟨k, hk, _⟩
      exact absurd hk (List.not_mem_nil k)
  | cons k0 rest ih =>
      intro acc h
      rcases h with ⟨k, hk, hnone⟩
      unfold downloadManyAux addFileModel
      cases hm : files (tmpFilePath n k0) with
      | none => exact ⟨_, rfl⟩
      | some c =>
          rcases List.mem_cons.mp hk with rfl | hk2
          · rw [hm] at hnone
            exact absurd hnone (by simp)
          · exact ih _ ⟨k, hk2, hnone⟩

/-- C8: for every ordered key list in which some key has no backing file,
`DownloadMany` fails with an error and returns no archive at all — the
result carries no zip entry for any key, earlier existing keys included,
mirroring the source, which writes the in-memory archive buffer to the
response only after every key has been added and the zip writer closed. -/
theorem archive_all_or_nothing (n : NimbusHTTPFormImpl) (st : StoreState)
    (keys : List String) (k : String) (hk : k ∈ keys)
    (hmiss : st.files (tmpFilePath n k) = none) :
    ∃ msg, downloadManyModel n st keys = Except.error msg :=
  downloadManyAux_error_of_missing n st.files keys [] ⟨k, hk, hmiss⟩

/-- C8 witness: archiving `["a.png", "missing.png"]` on a store that holds
only `a.png` fails, returning no entries. -/
theorem archive_all_or_nothing_witness :
    ("missing.png" ∈ (["a.png", "missing.png"] : List String) ∧
      storeWithA.files (tmpFilePath cfgChunk1 "missing.png") = none) ∧
    ∃ msg, downloadManyModel cfgChunk1 storeWithA ["a.png", "missing.png"] =
      Except.error msg :=
  ⟨⟨by decide, rfl⟩,
    archive_all_or_nothing cfgChunk1 storeWithA ["a.png", "missing.png"]
      "missing.png" (by decide) rfl⟩

/-- C9: for every upload whose derived extension the policy rejects as not
permitted, `Upload` fails with that `ExtensionNotPermitted` error, no new
backing file is created, and the metadata cache is unchanged — the handler
returns with the store state exactly as it was. -/
theorem rejected_upload_changes_nothing (n : NimbusHTTPFormImpl)
    (st : StoreState) (filename : String) (contentType : List String)
    (data : List Nat) (rand : String)
    (h : isExtAllowed n (filepathExt filename) =
      some "file extension not permitted") :
    uploadModel n st filename contentType data rand =
      (Except.error "file extension not permitted", st) := by
  unfold uploadModel
  dsimp only
  rw [h]

/-- C9 witness: uploading `notes.txt` to the `.png`-only store fails with
the extension error and leaves the empty store untouched. -/
theorem rejected_upload_changes_nothing_witness :
    isExtAllowed cfgPng (filepathExt "notes.txt") =
      some "file extension not permitted" ∧
    uploadModel cfgPng emptyStore "notes.txt" ["text/plain"] [1, 2] "zzz" =
      (Except.error "file extension not permitted", emptyStore) :=
  ⟨rfl, rejected_upload_changes_nothing cfgPng emptyStore "notes.txt"
    ["text/plain"] [1, 2] "zzz" rfl⟩

/-- C10: the allow-all sentinel takes effect only when the allow-list is
exactly `["_all_"]`.  For every allow-list that contains `"_all_"` together
with at least one other entry, an extension is accepted iff it literally
equals one of the listed entries (and is not the empty extension while
extension-less files are disallowed) — such a list does not allow all
extensions. -/
theorem sentinel_only_when_alone (n : NimbusHTTPFormImpl) (ext : String)
    (_hmem : "_all_" ∈ n.allowedExtensions)
    (hlen : 2 ≤ n.allowedExtensions.length) :
    isExtAllowed n ext = none ↔
      ext ∈ n.allowedExtensions ∧ ¬(ext = "" ∧ n.allowNoExt = false) := by
  unfold isExtAllowed
  by_cases h1 : ext = "" ∧ n.allowNoExt = false
  · simp [h1]
  rw [if_neg h1]
  have hsent : ¬(n.allowedExtensions.length = 1 ∧
      n.allowedExtensions.head? = some "_all_") := by
    rintro ⟨hl, _⟩
    omega
  rw [if_neg hsent]
  by_cases h3 : ext ∈ n.allowedExtensions
  · rw [if_pos (List.elem_eq_true_of_mem h3)]
    simp [h3, h1]
  · rw [if_neg (fun hc => h3 (List.mem_of_elem_eq_true hc))]
    simp [h3]

/-- C10 witness: with the allow-list `["_all_", ".png"]`, the extension
`".png"` is accepted because it is listed, and consequently (by the iff)
the unlisted `".gif"` is not — the sentinel is inert in a longer list. -/
theorem sentinel_only_when_alone_witness :
    ("_all_" ∈ (["_all_", ".png"] : List String) ∧
      2 ≤ (["_all_", ".png"] : List String).length) ∧
    (isExtAllowed cfgMixed ".png" = none ↔
      ".png" ∈ cfgMixed.allowedExtensions ∧
        ¬(".png" = "" ∧ cfgMixed.allowNoExt = false)) :=
  ⟨⟨by decide, by decide⟩, sentinel_only_when_alone cfgMixed ".png"
    (by decide) (by decide)⟩

end Nimbus
